import Mathlib

/-
Verification development for the modular RAG pipeline repository.
Python text is modelled as `List Char`; Python dicts (string keys) as
association lists with insert-or-overwrite; Python ints as `Int`;
raising as `Except`; the chunking while-loop as a fuel-indexed function
where `none` means the loop did not finish within the given fuel
(so `∀ fuel, ... = none` is divergence).
-/

/-- Values stored in a metadata dict: the repository stores strings
(source, type) and ints (page, chunk_index). -/
inductive MetaVal where
  | str (s : String)
  | int (n : Int)
deriving DecidableEq

/-- A Python dict with string keys, as an association list with unique keys
(maintained by `dictInsert`). Insertion order is kept, as in Python. -/
abbrev Dict := List (String × MetaVal)

/-- Python `d[k] = v`: overwrite in place if the key exists, else append. -/
def dictInsert : Dict → String → MetaVal → Dict
  | [], k, v => [(k, v)]
  | (k0, v0) :: rest, k, v =>
    if k0 = k then (k, v) :: rest else (k0, v0) :: dictInsert rest k v

/-- Python `d.get(k)` / `d[k]`: first binding of the key. -/
def dictGet : Dict → String → Option MetaVal
  | [], _ => none
  | (k0, v0) :: rest, k => if k0 = k then some v0 else dictGet rest k

/-- Python `k in d`. -/
def dictHasKey (d : Dict) (k : String) : Bool :=
  d.any (fun p => p.1 = k)

/-- `src/src/interfaces.py`, `Document`: content plus metadata dict. -/
structure Document where
  content : List Char
  metadata : Dict
deriving DecidableEq

/-- An element of a Python list passed to `chunk_documents`: either a
`Document` or some other object (which fails the `isinstance` check). -/
inductive PyObj where
  | doc (d : Document)
  | nonDoc
deriving DecidableEq

/-- Python exceptions raised by the ingestion module. -/
inductive PyErr where
  | valueError (msg : String)
  | typeError (msg : String)
deriving DecidableEq

/-- Python `\s` on the ASCII fragment (the regex also matches further
Unicode whitespace; all inputs in this development are ASCII). -/
def pySpace (c : Char) : Bool :=
  c = ' ' || c = '\t' || c = '\n' || c = '\r' || c = '\x0b' || c = '\x0c'

/-- Python `\d` on the ASCII fragment. -/
def isDigitCh (c : Char) : Bool :=
  '0' ≤ c && c ≤ '9'

/-- Python `str.isprintable` on the ASCII fragment: printable iff not a
control character (all inputs in this development are ASCII). -/
def pyIsPrintable (c : Char) : Bool :=
  0x20 ≤ c.toNat && c.toNat < 0x7f

/-- `re.sub(r"\s+", " ", text)`: each maximal whitespace run becomes one
space. -/
def collapseWs : List Char → List Char
  | [] => []
  | [c] => if pySpace c then [' '] else [c]
  | c1 :: c2 :: rest =>
    if pySpace c1 && pySpace c2 then collapseWs (c2 :: rest)
    else (if pySpace c1 then ' ' else c1) :: collapseWs (c2 :: rest)

/-- Python `str.strip()` (ASCII whitespace). -/
def stripWs (l : List Char) : List Char :=
  ((l.dropWhile pySpace).reverse.dropWhile pySpace).reverse

/-- Drop a literal pattern from the front of a text, or fail. -/
def dropLit : List Char → List Char → Option (List Char)
  | [], l => some l
  | _ :: _, [] => none
  | p :: ps, c :: cs => if c = p then dropLit ps cs else none

/-- Match the regex `Page \d+ of \d+` at the head of the text, returning
the remainder after the match. Greedy `\d+` equals maximal munch here,
since after a maximal digit run backtracking would put a digit where a
space is required. -/
def matchFooter (l : List Char) : Option (List Char) :=
  match dropLit "Page ".toList l with
  | none => none
  | some r1 =>
    if r1.takeWhile isDigitCh = [] then none
    else
      match dropLit " of ".toList (r1.dropWhile isDigitCh) with
      | none => none
      | some r2 =>
        if r2.takeWhile isDigitCh = [] then none
        else some (r2.dropWhile isDigitCh)

/-- Left-to-right scan removing non-overlapping leftmost matches, as
`re.sub(pattern, "", text)` does. The fuel starts at the length of the
text and bounds the scan; every step consumes at least one character, so
the fuel never runs out. -/
def removeFootersGo : Nat → List Char → List Char
  | _, [] => []
  | 0, l => l
  | f + 1, c :: cs =>
    match matchFooter (c :: cs) with
    | some rest => removeFootersGo f rest
    | none => c :: removeFootersGo f cs

/-- `re.sub(r"Page \d+ of \d+", "", text)`. -/
def removeFooters (l : List Char) : List Char :=
  removeFootersGo l.length l

/-- `src/src/ingestion.py`, `TextCleaner.clean`: empty guard, whitespace
collapse plus strip, footer removal, then the printable filter. -/
def clean (text : List Char) : List Char :=
  if text = [] then []
  else
    let t1 := stripWs (collapseWs text)
    let t2 := removeFooters t1
    t2.filter pyIsPrintable

/-- Normalize one bound of a Python step-1 slice: negative indices count
from the end, then clamp into `[0, n]`. -/
def sliceIdx (n : Nat) (i : Int) : Nat :=
  if i < 0 then (i + n).toNat else min i.toNat n

/-- Python `l[start:stop]` (step 1). -/
def pySlice (l : List Char) (start stop : Int) : List Char :=
  (l.take (sliceIdx l.length stop)).drop (sliceIdx l.length start)

/-- `src/src/ingestion.py`, `TextChunker.__init__`: stores the two fields
and performs no validation. -/
structure TextChunker where
  chunk_size : Int
  chunk_overlap : Int
deriving DecidableEq

/-- The `while start < len(text)` loop of `chunk_documents`, for one
document: `end = start + chunk_size`, slice, copy the document metadata
and set `chunk_index = len(chunked_docs)`, append, advance by
`chunk_size - chunk_overlap`. One unit of fuel per iteration; `none`
means the loop did not finish within the fuel. -/
def windowLoop (size adv : Int) (text : List Char) (md : Dict) :
    Nat → Int → List Document → Option (List Document × Nat)
  | fuel, start, acc =>
    if start < (text.length : Int) then
      match fuel with
      | 0 => none
      | f + 1 =>
        windowLoop size adv text md f (start + adv)
          (acc ++ [{ content := pySlice text start (start + size),
                     metadata := dictInsert md "chunk_index" (.int acc.length) }])
    else some (acc, fuel)

/-- The `for doc in documents` loop of `chunk_documents`: `isinstance`
check, skip of empty content, then the window loop, threading the
accumulated chunk list (and the fuel) across documents. -/
def docsLoop (size adv : Int) :
    List PyObj → List Document → Nat → Option (Except PyErr (List Document))
  | [], acc, _ => some (.ok acc)
  | .nonDoc :: _, _, _ =>
    some (.error (.typeError "Processing failed: Input list contains non-Document objects."))
  | .doc d :: rest, acc, fuel =>
    if d.content = [] then docsLoop size adv rest acc fuel
    else
      match windowLoop size adv d.content d.metadata fuel 0 acc with
      | none => none
      | some (acc2, fuel2) => docsLoop size adv rest acc2 fuel2

/-- `src/src/ingestion.py`, `TextChunker.chunk_documents`: empty-input
guard, then the document loop. `none` means a window loop diverged. -/
def chunk_documents (ck : TextChunker) (documents : List PyObj) (fuel : Nat) :
    Option (Except PyErr (List Document)) :=
  if documents = [] then
    some (.error (.valueError "Input document list cannot be empty."))
  else
    docsLoop ck.chunk_size (ck.chunk_size - ck.chunk_overlap) documents [] fuel

/-- Contents of the windows emitted from a given start offset, indexed by
the same fuel as `windowLoop` (proof auxiliary). -/
def windowContents (size adv : Int) (text : List Char) :
    Nat → Int → List (List Char)
  | 0, _ => []
  | f + 1, s =>
    if s < (text.length : Int) then
      pySlice text s (s + size) :: windowContents size adv text f (s + adv)
    else []

/-- Claim-side recombination: the first `a` characters of every chunk but
the last, then the whole last chunk. -/
def reassemble (a : Nat) : List (List Char) → List Char
  | [] => []
  | [c] => c
  | c :: c2 :: rest => c.take a ++ reassemble a (c2 :: rest)

/-- Errors raised by `IngestionEngine._validate_document`. The message of
the missing-keys `ValueError` interpolates the Python set
`required_keys - doc.metadata.keys()`; here the error carries that set of
missing keys as a list. -/
inductive ValErr where
  | typeErr (msg : String)
  | missingKeys (ks : List String)
deriving DecidableEq

/-- The Python set literal `{"source", "type"}` of required metadata keys,
as a list (only membership is ever used). -/
def requiredKeys : List String := ["source", "type"]

/-- `src/src/ingestion.py`, `IngestionEngine._validate_document`:
`isinstance` check, then `all(key in doc.metadata for key in
required_keys)`; on failure a `ValueError` naming the missing keys. The
final empty-content check only logs a warning and raises nothing. -/
def validate_document (obj : PyObj) : Except ValErr Unit :=
  match obj with
  | .nonDoc => .error (.typeErr "Object is not a valid Document instance.")
  | .doc d =>
    if requiredKeys.all (fun k => dictHasKey d.metadata k) then .ok ()
    else .error (.missingKeys (requiredKeys.filter (fun k => ! dictHasKey d.metadata k)))

/-- An embedding vector; float entries are modelled as rationals (the code
only ever constructs the literal `0.0` in the degraded path). -/
abbrev Vec := List ℚ

/-- The literal `[0.0] * 384` built by the degraded path of `embed`. -/
def zeroVec : Vec := List.replicate 384 (0 : ℚ)

/-- The loaded sentence-transformers model, opaque to this module: its
`encode` either returns vectors or raises. -/
structure EmbModel where
  encode : List String → Except String (List Vec)

/-- `src/src/embedder.py`, `Embedder`: `self.model` is `None` when the
library is missing (mock mode); the failed-to-load path raises inside
`__init__`, so no `Embedder` value exists for it. -/
structure Embedder where
  model : Option EmbModel

/-- `src/src/embedder.py`, `Embedder.embed`: empty-input guard, mock mode
returning `[[0.0] * 384 for _ in texts]`, then the real call with the
same fallback on any exception. Total by construction: it never raises. -/
def embed (e : Embedder) (texts : List String) : List Vec :=
  if texts = [] then []
  else
    match e.model with
    | none => texts.map (fun _ => zeroVec)
    | some m =>
      match m.encode texts with
      | .ok vs => vs
      | .error _ => texts.map (fun _ => zeroVec)

/-- The context delimiter of `AnswerEngine._construct_prompt`. -/
def ctxDelim : List Char := "\n\n---\n\n".toList

/-- Template text before the context block in `_construct_prompt`
(apostrophes written via their code point). -/
def tmplPre : List Char :=
  "You are a helpful AI assistant. Use the following pieces of context to answer the user".toList
    ++ [Char.ofNat 39]
    ++ "s question.\nIf the answer is not in the context, say \"I don".toList
    ++ [Char.ofNat 39]
    ++ "t have enough information to answer that based on the provided documents.\"\n\nCONTEXT:\n".toList

/-- Template text between the context block and the query. -/
def tmplMid : List Char := "\n\nUSER QUESTION: \n".toList

/-- Template text after the query. -/
def tmplEnd : List Char := "\n\nANSWER:\n".toList

/-- The fixed short-circuit response of `AnswerEngine.answer`. -/
def noInfoMsg : List Char :=
  "No relevant information found in the knowledge base.".toList

/-- `src/src/answer_engine.py`, `AnswerEngine._construct_prompt`:
`"\n\n---\n\n".join(doc.content for doc in context_docs)` spliced into
the f-string template. -/
def constructPrompt (query : List Char) (contextDocs : List Document) : List Char :=
  tmplPre ++ List.intercalate ctxDelim (contextDocs.map Document.content)
    ++ tmplMid ++ query ++ tmplEnd

/-- `AnswerEngine` state for one `answer` call: the response of its
`Retriever` and the response function of its language model, both opaque
external collaborators. -/
structure AnswerEngine where
  retrieve : List Char → List Document
  llmGenerate : List Char → List Char

/-- `src/src/answer_engine.py`, `AnswerEngine.answer`: retrieve, empty
short-circuit, prompt construction, generation. -/
def answer (e : AnswerEngine) (query : List Char) : List Char :=
  let docs := e.retrieve query
  if docs = [] then noInfoMsg
  else e.llmGenerate (constructPrompt query docs)

/-- A document whose metadata field is a reference (address) into a heap
of dicts: the heap model used to state object-identity facts about
`doc.metadata.copy()`. -/
structure DocumentH where
  content : List Char
  metadata : Nat
deriving DecidableEq

/-- Heap-model counterpart of `PyObj`. -/
inductive PyObjH where
  | doc (d : DocumentH)
  | nonDoc
deriving DecidableEq

/-- The heap of dict objects; an address is an index, allocation appends. -/
abbrev Heap := List Dict

/-- Heap-model window loop of `chunk_documents`: each iteration
dereferences the source metadata, allocates a fresh dict for
`doc.metadata.copy()` with `chunk_index` set, and the chunk stores the
fresh address. -/
def windowLoopH (size adv : Int) (text : List Char) (mdAddr : Nat) :
    Nat → Int → List DocumentH → Heap → Option (List DocumentH × Heap × Nat)
  | fuel, start, acc, h =>
    if start < (text.length : Int) then
      match fuel with
      | 0 => none
      | f + 1 =>
        let src := h.getD mdAddr []
        let fresh := dictInsert src "chunk_index" (.int acc.length)
        windowLoopH size adv text mdAddr f (start + adv)
          (acc ++ [{ content := pySlice text start (start + size),
                     metadata := h.length }])
          (h ++ [fresh])
    else some (acc, h, fuel)

/-- Heap-model document loop of `chunk_documents`. -/
def docsLoopH (size adv : Int) :
    List PyObjH → List DocumentH → Heap → Nat →
      Option (Except PyErr (List DocumentH × Heap))
  | [], acc, h, _ => some (.ok (acc, h))
  | .nonDoc :: _, _, _, _ =>
    some (.error (.typeError "Processing failed: Input list contains non-Document objects."))
  | .doc d :: rest, acc, h, fuel =>
    if d.content = [] then docsLoopH size adv rest acc h fuel
    else
      match windowLoopH size adv d.content d.metadata fuel 0 acc h with
      | none => none
      | some (acc2, h2, fuel2) => docsLoopH size adv rest acc2 h2 fuel2

/-- Heap-model `chunk_documents`, for the object-identity claim. -/
def chunk_documentsH (ck : TextChunker) (documents : List PyObjH) (h : Heap)
    (fuel : Nat) : Option (Except PyErr (List DocumentH × Heap)) :=
  if documents = [] then
    some (.error (.valueError "Input document list cannot be empty."))
  else
    docsLoopH ck.chunk_size (ck.chunk_size - ck.chunk_overlap) documents [] h fuel

deriving instance DecidableEq for Except

/-- The result list of the window loop extends the accumulator. -/
theorem windowLoop_extends (size adv : Int) (text : List Char) (md : Dict) :
    ∀ (fuel : Nat) (start : Int) (acc res : List Document) (f2 : Nat),
      windowLoop size adv text md fuel start acc = some (res, f2) →
      ∃ em, res = acc ++ em := by
  intro fuel
  induction fuel with
  | zero =>
    intro start acc res f2 h
    rw [windowLoop] at h
    split at h
    · simp at h
    · simp only [Option.some.injEq, Prod.mk.injEq] at h
      exact ⟨[], by simp [h.1.symm]⟩
  | succ f ih =>
    intro start acc res f2 h
    rw [windowLoop] at h
    split at h
    · obtain ⟨em, hem⟩ := ih _ _ _ _ h
      exact ⟨_ :: em, by simpa using hem⟩
    · simp only [Option.some.injEq, Prod.mk.injEq] at h
      exact ⟨[], by simp [h.1.symm]⟩

/-- The contents emitted by the window loop are `windowContents`. -/
theorem windowLoop_contents (size adv : Int) (text : List Char) (md : Dict) :
    ∀ (fuel : Nat) (start : Int) (acc res : List Document) (f2 : Nat),
      windowLoop size adv text md fuel start acc = some (res, f2) →
      res.map Document.content
        = acc.map Document.content ++ windowContents size adv text fuel start := by
  intro fuel
  induction fuel with
  | zero =>
    intro start acc res f2 h
    rw [windowLoop] at h
    split at h <;> rename_i hguard
    · simp at h
    · simp only [Option.some.injEq, Prod.mk.injEq] at h
      simp [windowContents, h.1.symm]
  | succ f ih =>
    intro start acc res f2 h
    rw [windowLoop] at h
    rw [windowContents]
    split at h <;> rename_i hguard
    · have := ih _ _ _ _ h
      simp only [List.map_append, List.map_cons, List.map_nil] at this
      simp [hguard, this]
    · simp only [Option.some.injEq, Prod.mk.injEq] at h
      simp [h.1.symm, hguard]

/-- Every chunk the window loop appends at position `i` of the result
carries metadata `dictInsert md "chunk_index" i`. -/
theorem windowLoop_meta (size adv : Int) (text : List Char) (md : Dict) :
    ∀ (fuel : Nat) (start : Int) (acc res : List Document) (f2 : Nat),
      windowLoop size adv text md fuel start acc = some (res, f2) →
      ∀ (i : Nat) (hi : i < res.length), acc.length ≤ i →
        (res.get ⟨i, hi⟩).metadata = dictInsert md "chunk_index" (.int i) := by
  intro fuel
  induction fuel with
  | zero =>
    intro start acc res f2 h i hi hacc
    rw [windowLoop] at h
    split at h
    · simp at h
    · simp only [Option.some.injEq, Prod.mk.injEq] at h
      obtain ⟨rfl, -⟩ := h
      omega
  | succ f ih =>
    intro start acc res f2 h i hi hacc
    rw [windowLoop] at h
    split at h
    · by_cases hcase : acc.length + 1 ≤ i
      · exact ih _ _ _ _ h i hi (by simpa using hcase)
      · have hieq : i = acc.length := by omega
        obtain ⟨em, hem⟩ := windowLoop_extends size adv text md _ _ _ _ _ h
        rw [List.append_assoc] at hem
        subst hem
        simp only [List.get_eq_getElem]
        rw [List.getElem_append_right (by omega)]
        simp [hieq]
    · simp only [Option.some.injEq, Prod.mk.injEq] at h
      obtain ⟨rfl, -⟩ := h
      omega

/-- Window count: with positive advance, the result holds a chunk at
offset `j` past the accumulator exactly when the `j`-th window start is
still below the content length. -/
theorem windowLoop_count (size adv : Int) (text : List Char) (md : Dict)
    (hadv : 0 < adv) :
    ∀ (fuel : Nat) (start : Int) (acc res : List Document) (f2 : Nat),
      windowLoop size adv text md fuel start acc = some (res, f2) →
      ∀ j : Nat, (acc.length + j < res.length ↔ start + j * adv < (text.length : Int)) := by
  intro fuel
  induction fuel with
  | zero =>
    intro start acc res f2 h j
    rw [windowLoop] at h
    split at h <;> rename_i hguard
    · simp at h
    · simp only [Option.some.injEq, Prod.mk.injEq] at h
      obtain ⟨rfl, -⟩ := h
      constructor
      · omega
      · intro hrhs
        have : (0 : Int) ≤ j * adv := by positivity
        omega
  | succ f ih =>
    intro start acc res f2 h j
    rw [windowLoop] at h
    split at h <;> rename_i hguard
    · match j with
      | 0 =>
        obtain ⟨em, hem⟩ := windowLoop_extends size adv text md _ _ _ _ _ h
        subst hem
        simp only [List.length_append, List.length_cons]
        constructor
        · intro _; simpa using hguard
        · intro _; simp; omega
      | j + 1 =>
        have := ih _ _ _ _ h j
        simp only [List.length_append, List.length_cons, List.length_nil] at this
        constructor
        · intro hlt
          have := this.1 (by omega)
          push_cast
          push_cast at this
          nlinarith [this]
        · intro hrhs
          have hj : start + adv + j * adv < (text.length : Int) := by
            push_cast at hrhs ⊢
            nlinarith [hrhs]
          have := this.2 hj
          omega
    · simp only [Option.some.injEq, Prod.mk.injEq] at h
      obtain ⟨rfl, -⟩ := h
      constructor
      · omega
      · intro hrhs
        have : (0 : Int) ≤ j * adv := by positivity
        omega

/-- The `i`-th emitted window content is the slice starting at
`start + i * adv`. -/
theorem windowContents_get? (size adv : Int) (text : List Char) :
    ∀ (fuel : Nat) (s : Int) (i : Nat),
      i < (windowContents size adv text fuel s).length →
      (windowContents size adv text fuel s).get? i
        = some (pySlice text (s + i * adv) (s + i * adv + size)) := by
  intro fuel
  induction fuel with
  | zero =>
    intro s i hi
    simp [windowContents] at hi
  | succ f ih =>
    intro s i hi
    by_cases hguard : s < (text.length : Int)
    · rw [windowContents, if_pos hguard]
      match i with
      | 0 => simp
      | i + 1 =>
        simp only [List.get?_cons_succ]
        have hlen : i < (windowContents size adv text f (s + adv)).length := by
          rw [windowContents, if_pos hguard] at hi
          simpa using hi
        rw [ih (s + adv) i hlen]
        push_cast
        ring_nf
    · rw [windowContents, if_neg hguard] at hi
      simp at hi

/-- With non-positive advance the window loop never terminates once the
start offset is below the content length: the loop guard stays true. -/
theorem windowLoop_diverge (size adv : Int) (text : List Char) (md : Dict)
    (hadv : adv ≤ 0) :
    ∀ (fuel : Nat) (start : Int) (acc : List Document),
      start < (text.length : Int) →
      windowLoop size adv text md fuel start acc = none := by
  intro fuel
  induction fuel with
  | zero =>
    intro start acc hlt
    rw [windowLoop]
    simp [hlt]
  | succ f ih =>
    intro start acc hlt
    rw [windowLoop]
    simp only [hlt, if_true]
    exact ih _ _ (by omega)

/-- Length of a Python slice `l[s : s + k]` for natural bounds. -/
theorem pySlice_length (l : List Char) (s k : Nat) :
    (pySlice l (s : Int) ((s : Int) + (k : Int))).length
      = min k (l.length - s) := by
  unfold pySlice sliceIdx
  have h1 : ¬ ((s : Int) < 0) := by omega
  have h2 : ¬ ((s : Int) + (k : Int) < 0) := by omega
  simp only [h1, h2, if_false]
  have h3 : ((s : Int) + (k : Int)).toNat = s + k := by omega
  have h4 : ((s : Int)).toNat = s := by omega
  rw [h3, h4]
  simp only [List.length_drop, List.length_take]
  omega

/-- Looking up the key just inserted returns the inserted value. -/
theorem dictGet_insert_self (m : Dict) (k : String) (v : MetaVal) :
    dictGet (dictInsert m k v) k = some v := by
  induction m with
  | nil => simp [dictInsert, dictGet]
  | cons p rest ih =>
    obtain ⟨k0, v0⟩ := p
    by_cases hk : k0 = k
    · simp [dictInsert, hk, dictGet]
    · simp [dictInsert, hk, dictGet, ih]

/-- The result list of the document loop extends the accumulator. -/
theorem docsLoop_extends (size adv : Int) :
    ∀ (objs : List PyObj) (acc : List Document) (fuel : Nat) (cs : List Document),
      docsLoop size adv objs acc fuel = some (.ok cs) →
      ∃ em, cs = acc ++ em := by
  intro objs
  induction objs with
  | nil =>
    intro acc fuel cs h
    rw [docsLoop] at h
    simp only [Option.some.injEq, Except.ok.injEq] at h
    exact ⟨[], by simp [h.symm]⟩
  | cons obj rest ih =>
    intro acc fuel cs h
    match obj with
    | .nonDoc => rw [docsLoop] at h; simp at h
    | .doc d =>
      rw [docsLoop] at h
      split at h
      · exact ih _ _ _ h
      · rcases hw : windowLoop size adv d.content d.metadata fuel 0 acc with - | ⟨acc2, f2⟩
        · rw [hw] at h; simp at h
        · rw [hw] at h
          obtain ⟨em1, hem1⟩ := windowLoop_extends size adv d.content d.metadata _ _ _ _ _ hw
          obtain ⟨em2, hem2⟩ := ih _ _ _ h
          exact ⟨em1 ++ em2, by rw [hem2, hem1, List.append_assoc]⟩

/-- Every chunk the document loop appends at position `i` of the result
carries a copy of the metadata of one of the input documents, extended
with `chunk_index = i`. -/
theorem docsLoop_meta (size adv : Int) :
    ∀ (objs : List PyObj) (acc : List Document) (fuel : Nat) (cs : List Document),
      docsLoop size adv objs acc fuel = some (.ok cs) →
      ∀ (i : Nat) (hi : i < cs.length), acc.length ≤ i →
        ∃ d, PyObj.doc d ∈ objs ∧
          (cs.get ⟨i, hi⟩).metadata = dictInsert d.metadata "chunk_index" (.int i) := by
  intro objs
  induction objs with
  | nil =>
    intro acc fuel cs h i hi hacc
    rw [docsLoop] at h
    simp only [Option.some.injEq, Except.ok.injEq] at h
    subst h
    omega
  | cons obj rest ih =>
    intro acc fuel cs h i hi hacc
    match obj with
    | .nonDoc => rw [docsLoop] at h; simp at h
    | .doc d =>
      rw [docsLoop] at h
      split at h
      · obtain ⟨d2, hmem, hmeta⟩ := ih _ _ _ h i hi hacc
        exact ⟨d2, by simp [hmem], hmeta⟩
      · rcases hw : windowLoop size adv d.content d.metadata fuel 0 acc with - | ⟨acc2, f2⟩
        · rw [hw] at h; simp at h
        · rw [hw] at h
          by_cases hcase : acc2.length ≤ i
          · obtain ⟨d2, hmem, hmeta⟩ := ih _ _ _ h i hi hcase
            exact ⟨d2, by simp [hmem], hmeta⟩
          · refine ⟨d, by simp, ?_⟩
            obtain ⟨em2, hem2⟩ := docsLoop_extends size adv _ _ _ _ h
            have hlt : i < acc2.length := by omega
            have hget : cs.get ⟨i, hi⟩ = acc2.get ⟨i, hlt⟩ := by
              subst hem2
              simp only [List.get_eq_getElem]
              exact List.getElem_append_left hlt
            rw [hget]
            exact windowLoop_meta size adv d.content d.metadata _ _ _ _ _ hw i hlt hacc

/-- If the input list has a non-`Document` element after a prefix of
documents, any terminating run of the document loop raises the
`TypeError`. -/
theorem docsLoop_nonDoc (size adv : Int) :
    ∀ (pre : List PyObj) (rest : List PyObj) (acc : List Document) (fuel : Nat),
      (∀ x ∈ pre, ∃ d, x = PyObj.doc d) →
      docsLoop size adv (pre ++ PyObj.nonDoc :: rest) acc fuel ≠ none →
      docsLoop size adv (pre ++ PyObj.nonDoc :: rest) acc fuel
        = some (.error (.typeError "Processing failed: Input list contains non-Document objects.")) := by
  intro pre
  induction pre with
  | nil =>
    intro rest acc fuel _ _
    rw [List.nil_append, docsLoop]
  | cons obj pre2 ih =>
    intro rest acc fuel hdocs hterm
    obtain ⟨d, rfl⟩ := hdocs obj (by simp)
    rw [List.cons_append] at hterm ⊢
    rw [docsLoop] at hterm ⊢
    by_cases hempty : d.content = []
    · rw [if_pos hempty] at hterm ⊢
      exact ih _ _ _ (fun x hx => hdocs x (by simp [hx])) hterm
    · rw [if_neg hempty] at hterm ⊢
      split
      · rename_i heq
        simp [heq] at hterm
      · rename_i acc2 fuel2 heq
        have hterm2 : docsLoop size adv (pre2 ++ PyObj.nonDoc :: rest) acc2 fuel2 ≠ none := by
          rw [heq] at hterm
          exact hterm
        exact ih _ _ _ (fun x hx => hdocs x (by simp [hx])) hterm2

/-- A Python slice with natural bounds is take-then-drop. -/
theorem pySlice_coe (l : List Char) (s e : Nat) :
    pySlice l (s : Int) (e : Int) = (l.take e).drop s := by
  unfold pySlice sliceIdx
  have h1 : ¬ ((s : Int) < 0) := by omega
  have h2 : ¬ ((e : Int) < 0) := by omega
  rw [if_neg h1, if_neg h2]
  have h3 : ((s : Int)).toNat = s := by omega
  have h4 : ((e : Int)).toNat = e := by omega
  rw [h3, h4]
  apply List.ext_getElem
  · simp only [List.length_drop, List.length_take]
    omega
  · intro i hi1 hi2
    simp only [List.length_drop, List.length_take] at hi1 hi2
    simp only [List.getElem_drop, List.getElem_take]
    congr 1
    omega

/-- Once the start offset is at or past the content length, no windows
are emitted. -/
theorem windowContents_nil (size adv : Int) (text : List Char) (s : Int)
    (h : ¬ s < (text.length : Int)) :
    ∀ fuel, windowContents size adv text fuel s = [] := by
  intro fuel
  cases fuel with
  | zero => rw [windowContents]
  | succ f => rw [windowContents, if_neg h]

/-- A window-loop run that starts inside the text has positive fuel. -/
theorem windowLoop_fuel_pos (size adv : Int) (text : List Char) (md : Dict)
    (fuel : Nat) (start : Int) (acc res : List Document) (f2 : Nat)
    (h : windowLoop size adv text md fuel start acc = some (res, f2))
    (hg : start < (text.length : Int)) : ∃ g, fuel = g + 1 := by
  cases fuel with
  | zero =>
    rw [windowLoop, if_pos hg] at h
    simp at h
  | succ g => exact ⟨g, rfl⟩

/-- Inversion of a successful single-document run of `chunk_documents`
with non-empty content: the result is exactly the window loop result. -/
theorem chunk_documents_single (ck : TextChunker) (d : Document) (fuel : Nat)
    (cs : List Document) (hne : d.content ≠ [])
    (h : chunk_documents ck [PyObj.doc d] fuel = some (.ok cs)) :
    ∃ f2, windowLoop ck.chunk_size (ck.chunk_size - ck.chunk_overlap)
        d.content d.metadata fuel 0 [] = some (cs, f2) := by
  rw [chunk_documents] at h
  rw [if_neg (by simp)] at h
  rw [docsLoop] at h
  rw [if_neg hne] at h
  split at h
  · simp at h
  · rename_i acc2 f2 heq
    rw [docsLoop] at h
    simp only [Option.some.injEq, Except.ok.injEq] at h
    subst h
    exact ⟨f2, heq⟩

/-- Reassembly invariant of the window loop: taking the first `a`
characters of every window but the last and the whole last window
recovers the text from the current start offset on. -/
theorem windowLoop_reassemble (csize a : Nat) (text : List Char) (md : Dict)
    (ha : 0 < a) (has : a ≤ csize) :
    ∀ (fuel : Nat) (s : Nat) (acc res : List Document) (f2 : Nat),
      windowLoop (csize : Int) (a : Int) text md fuel (s : Int) acc = some (res, f2) →
      s < text.length →
      reassemble a (windowContents (csize : Int) (a : Int) text fuel (s : Int))
        = text.drop s := by
  intro fuel
  induction fuel with
  | zero =>
    intro s acc res f2 h hs
    rw [windowLoop] at h
    rw [if_pos (by exact_mod_cast hs)] at h
    simp at h
  | succ f ih =>
    intro s acc res f2 h hs
    have hguard : (s : Int) < (text.length : Int) := by exact_mod_cast hs
    rw [windowLoop] at h
    rw [if_pos hguard] at h
    rw [windowContents, if_pos hguard]
    have hcast : (s : Int) + (a : Int) = ((s + a : Nat) : Int) := by push_cast; ring
    by_cases hs2 : s + a < text.length
    · rw [hcast] at h
      have htail := ih (s + a) _ _ _ h hs2
      have hne : windowContents (csize : Int) (a : Int) text f ((s + a : Nat) : Int) ≠ [] := by
        obtain ⟨g, rfl⟩ := windowLoop_fuel_pos _ _ _ _ _ _ _ _ _ h (by exact_mod_cast hs2)
        rw [windowContents, if_pos (by exact_mod_cast hs2)]
        simp
      rw [hcast]
      rcases hwc : windowContents (csize : Int) (a : Int) text f ((s + a : Nat) : Int) with - | ⟨w, ws⟩
      · exact absurd hwc hne
      · rw [hwc] at htail
        rw [reassemble]
        have hslice : pySlice text (s : Int) ((s : Int) + (csize : Int))
            = (text.drop s).take csize := by
          have : (s : Int) + (csize : Int) = ((s + csize : Nat) : Int) := by push_cast; ring
          rw [this, pySlice_coe, List.drop_take]
          congr 1
          omega
        rw [hslice, htail, List.take_take, min_eq_left has]
        have : text.drop (s + a) = (text.drop s).drop a := by
          rw [List.drop_drop]
        rw [this, List.take_append_drop]
    · have hnil : windowContents (csize : Int) (a : Int) text f ((s : Int) + (a : Int)) = [] :=
        windowContents_nil _ _ _ _ (by omega) f
      rw [hnil, reassemble]
      have hc2 : (s : Int) + (csize : Int) = ((s + csize : Nat) : Int) := by push_cast; ring
      rw [hc2, pySlice_coe, List.drop_take]
      have hc3 : s + csize - s = csize := by omega
      rw [hc3]
      apply List.take_of_length_le
      simp only [List.length_drop]
      omega

/-- Every character of a reassembled text comes from one of the pieces. -/
theorem reassemble_mem (a : Nat) :
    ∀ (L : List (List Char)) (x : Char), x ∈ reassemble a L → ∃ l ∈ L, x ∈ l := by
  intro L
  induction L with
  | nil => intro x hx; simp [reassemble] at hx
  | cons c rest ih =>
    intro x hx
    match rest with
    | [] =>
      rw [reassemble] at hx
      exact ⟨c, by simp, hx⟩
    | c2 :: rest2 =>
      rw [reassemble] at hx
      rcases List.mem_append.1 hx with hx1 | hx2
      · exact ⟨c, by simp, List.mem_of_mem_take hx1⟩
      · obtain ⟨l, hl, hxl⟩ := ih x hx2
        exact ⟨l, by simp [hl], hxl⟩

/-- Heap-model window loop: the heap only grows, and every chunk not
already in the accumulator stores a freshly allocated metadata address. -/
theorem windowLoopH_frame (size adv : Int) (text : List Char) (mdAddr : Nat) :
    ∀ (fuel : Nat) (start : Int) (acc : List DocumentH) (h : Heap)
      (acc2 : List DocumentH) (h2 : Heap) (f2 : Nat),
      windowLoopH size adv text mdAddr fuel start acc h = some (acc2, h2, f2) →
      (∃ ext, h2 = h ++ ext) ∧ (∀ c ∈ acc2, c ∈ acc ∨ h.length ≤ c.metadata) := by
  intro fuel
  induction fuel with
  | zero =>
    intro start acc h acc2 h2 f2 hrun
    rw [windowLoopH] at hrun
    split at hrun
    · simp at hrun
    · simp only [Option.some.injEq, Prod.mk.injEq] at hrun
      obtain ⟨rfl, rfl, -⟩ := hrun
      exact ⟨⟨[], by simp⟩, fun c hc => Or.inl hc⟩
  | succ f ih =>
    intro start acc h acc2 h2 f2 hrun
    rw [windowLoopH] at hrun
    split at hrun
    · obtain ⟨⟨ext, hext⟩, hfresh⟩ := ih _ _ _ _ _ _ hrun
      constructor
      · exact ⟨_ :: ext, by simpa [List.append_assoc] using hext⟩
      · intro c hc
        rcases hfresh c hc with hmem | hge
        · rcases List.mem_append.1 hmem with hmem2 | hmem2
          · exact Or.inl hmem2
          · right
            simp only [List.mem_singleton] at hmem2
            subst hmem2
            simp
        · right
          simp only [List.length_append, List.length_cons, List.length_nil] at hge
          omega
    · simp only [Option.some.injEq, Prod.mk.injEq] at hrun
      obtain ⟨rfl, rfl, -⟩ := hrun
      exact ⟨⟨[], by simp⟩, fun c hc => Or.inl hc⟩

/-- Heap-model document loop: the heap only grows, and every chunk not
already in the accumulator stores a freshly allocated metadata address. -/
theorem docsLoopH_frame (size adv : Int) :
    ∀ (objs : List PyObjH) (acc : List DocumentH) (h : Heap) (fuel : Nat)
      (cs : List DocumentH) (h2 : Heap),
      docsLoopH size adv objs acc h fuel = some (.ok (cs, h2)) →
      (∃ ext, h2 = h ++ ext) ∧ (∀ c ∈ cs, c ∈ acc ∨ h.length ≤ c.metadata) := by
  intro objs
  induction objs with
  | nil =>
    intro acc h fuel cs h2 hrun
    rw [docsLoopH] at hrun
    simp only [Option.some.injEq, Except.ok.injEq, Prod.mk.injEq] at hrun
    obtain ⟨rfl, rfl⟩ := hrun
    exact ⟨⟨[], by simp⟩, fun c hc => Or.inl hc⟩
  | cons obj rest ih =>
    intro acc h fuel cs h2 hrun
    match obj with
    | .nonDoc => rw [docsLoopH] at hrun; simp at hrun
    | .doc d =>
      rw [docsLoopH] at hrun
      split at hrun
      · exact ih _ _ _ _ _ hrun
      · split at hrun
        · simp at hrun
        · rename_i acc3 h3 f3 heq
          obtain ⟨⟨ext1, hext1⟩, hfresh1⟩ := windowLoopH_frame size adv d.content d.metadata _ _ _ _ _ _ _ heq
          obtain ⟨⟨ext2, hext2⟩, hfresh2⟩ := ih _ _ _ _ _ hrun
          constructor
          · exact ⟨ext1 ++ ext2, by rw [hext2, hext1, List.append_assoc]⟩
          · intro c hc
            rcases hfresh2 c hc with hmem | hge
            · rcases hfresh1 c hmem with hmem2 | hge2
              · exact Or.inl hmem2
              · exact Or.inr hge2
            · right
              rw [hext1] at hge
              simp only [List.length_append] at hge
              omega

/-- Claim C2 (code evaluated at the failing configuration): the
`TextChunker` constructor accepts `chunk_overlap >= chunk_size` without
any validation, and on such a chunker `chunk_documents` never terminates
on a document with non-empty content: it runs out of any amount of fuel.
The claim says construction raises a validation error instead. -/
theorem chunker_diverges_on_degenerate_config
    (csz cov : Int) (d : Document) (hcfg : csz ≤ cov) (hne : d.content ≠ []) :
    ∀ fuel : Nat, chunk_documents ⟨csz, cov⟩ [PyObj.doc d] fuel = none := by
  intro fuel
  rw [chunk_documents, if_neg (by simp), docsLoop, if_neg hne]
  have hlen : (0 : Int) < (d.content.length : Int) := by
    have := List.length_pos.2 hne
    omega
  have hdiv := windowLoop_diverge csz (csz - cov) d.content d.metadata (by omega) fuel 0 [] hlen
  rw [hdiv]

/-- Witness for C2: the chunker built from size 10 and overlap 10 (which
Python constructs without error) diverges on a five-character document. -/
theorem chunker_diverges_on_degenerate_config_witness :
    chunk_documents ⟨10, 10⟩
        [PyObj.doc ⟨"hello".toList, [("source", MetaVal.str "a"), ("type", MetaVal.str "txt")]⟩] 7
      = none :=
  chunker_diverges_on_degenerate_config 10 10
    ⟨"hello".toList, [("source", MetaVal.str "a"), ("type", MetaVal.str "txt")]⟩
    (by omega) (by decide) 7

/-- Claim C3: `clean` collapses whitespace first and removes the footer
pattern afterwards without re-collapsing, so the footer example keeps its
double space, and the whitespace example collapses fully. -/
theorem clean_collapse_then_footer :
    clean ("Content here. Page 1 of 10 More content.".toList)
        = "Content here.  More content.".toList
    ∧ clean ("This    has   too\nmany\tspaces.".toList)
        = "This has too many spaces.".toList := by
  constructor <;> decide

/-- Claim C7: `chunk_documents` raises the empty-input `ValueError` on an
empty list, and raises the `TypeError` when the input contains a
non-`Document` element (after a prefix of documents), for every
terminating run. -/
theorem chunk_documents_input_errors :
    (∀ (ck : TextChunker) (fuel : Nat),
        chunk_documents ck [] fuel
          = some (Except.error (PyErr.valueError "Input document list cannot be empty."))) ∧
    (∀ (ck : TextChunker) (pre rest : List PyObj) (fuel : Nat),
        (∀ x ∈ pre, ∃ d, x = PyObj.doc d) →
        chunk_documents ck (pre ++ PyObj.nonDoc :: rest) fuel ≠ none →
        chunk_documents ck (pre ++ PyObj.nonDoc :: rest) fuel
          = some (Except.error (PyErr.typeError "Processing failed: Input list contains non-Document objects."))) := by
  constructor
  · intro ck fuel
    rw [chunk_documents, if_pos rfl]
  · intro ck pre rest fuel hpre hterm
    rw [chunk_documents, if_neg (by simp)] at hterm ⊢
    exact docsLoop_nonDoc _ _ pre rest [] fuel hpre hterm

/-- Witness for C7 at concrete inputs. -/
theorem chunk_documents_input_errors_witness :
    chunk_documents ⟨3, 1⟩ [] 5
      = some (Except.error (PyErr.valueError "Input document list cannot be empty.")) ∧
    chunk_documents ⟨3, 1⟩ [PyObj.doc ⟨"ab".toList, []⟩, PyObj.nonDoc] 5
      = some (Except.error (PyErr.typeError "Processing failed: Input list contains non-Document objects.")) := by
  refine ⟨chunk_documents_input_errors.1 ⟨3, 1⟩ 5, ?_⟩
  have h2 := chunk_documents_input_errors.2 ⟨3, 1⟩ [PyObj.doc ⟨"ab".toList, []⟩] [] 5
    (by intro x hx; simp at hx; exact ⟨_, hx⟩) (by decide)
  simpa using h2

/-- Counterexample to claim C1 as stated: with `chunk_size = 4`,
`chunk_overlap = 2` and content `"abcde"`, the run emits three chunks
`"abcd"`, `"cde"`, `"e"`; the chunk at index 1 is not the final chunk
(the final index is 2) yet its length 3 is smaller than the chunk size 4,
so it is not true that only the final chunk of a document may be shorter. -/
theorem nonfinal_chunk_shorter_cex :
    chunk_documents ⟨4, 2⟩
        [PyObj.doc ⟨"abcde".toList, [("source", MetaVal.str "a"), ("type", MetaVal.str "t")]⟩] 8
      = some (Except.ok
          [⟨"abcd".toList,
            [("source", MetaVal.str "a"), ("type", MetaVal.str "t"), ("chunk_index", MetaVal.int 0)]⟩,
           ⟨"cde".toList,
            [("source", MetaVal.str "a"), ("type", MetaVal.str "t"), ("chunk_index", MetaVal.int 1)]⟩,
           ⟨"e".toList,
            [("source", MetaVal.str "a"), ("type", MetaVal.str "t"), ("chunk_index", MetaVal.int 2)]⟩])
    ∧ "cde".toList.length < 4 ∧ 1 + 1 < 3 := by
  refine ⟨by decide, by decide, by decide⟩

/-- Claim C1 (amended): for a document with non-empty content and
`chunk_overlap < chunk_size`, with advance `a = chunk_size -
chunk_overlap`, the `i`-th emitted chunk is the slice
`content[i*a : i*a + chunk_size]`; windows start at offset 0 and a window
is emitted exactly while its start offset `i*a` is below the content
length; every chunk length equals `min chunk_size (length - i*a)` (hence
is at most `chunk_size`, with no padding); so every window that overruns
the end of the content, not only the final one, is shorter. -/
theorem chunker_sliding_window_amended
    (csize cov : Nat) (d : Document) (fuel : Nat) (cs : List Document)
    (hcfg : cov < csize) (hne : d.content ≠ [])
    (hrun : chunk_documents ⟨(csize : Int), (cov : Int)⟩ [PyObj.doc d] fuel
              = some (Except.ok cs)) :
    0 < cs.length ∧
    (∀ i : Nat, i < cs.length ↔ i * (csize - cov) < d.content.length) ∧
    (∀ (i : Nat) (hi : i < cs.length),
      (cs.get ⟨i, hi⟩).content
          = pySlice d.content ((i * (csize - cov) : Nat) : Int)
              (((i * (csize - cov) : Nat) : Int) + (csize : Int)) ∧
      (cs.get ⟨i, hi⟩).content.length
          = min csize (d.content.length - i * (csize - cov)) ∧
      (cs.get ⟨i, hi⟩).content.length ≤ csize) := by
  obtain ⟨f2, hw⟩ := chunk_documents_single _ _ _ _ hne hrun
  dsimp only at hw
  have hadv : (csize : Int) - (cov : Int) = ((csize - cov : Nat) : Int) := by omega
  rw [hadv] at hw
  have hlen0 : 0 < d.content.length := List.length_pos.2 hne
  have hcount := windowLoop_count (csize : Int) ((csize - cov : Nat) : Int)
    d.content d.metadata (by exact_mod_cast Nat.sub_pos_of_lt hcfg) fuel 0 [] cs f2 hw
  have hiff : ∀ i : Nat, i < cs.length ↔ i * (csize - cov) < d.content.length := by
    intro i
    have := hcount i
    simp only [List.length_nil, Nat.zero_add, zero_add] at this
    rw [this]
    constructor
    · intro hlt
      exact_mod_cast hlt
    · intro hlt
      exact_mod_cast hlt
  have hcont := windowLoop_contents _ _ _ _ fuel 0 [] cs f2 hw
  simp only [List.map_nil, List.nil_append] at hcont
  refine ⟨(hiff 0).2 (by simpa using hlen0), hiff, ?_⟩
  intro i hi
  have hwc : i < (windowContents (csize : Int) ((csize - cov : Nat) : Int) d.content fuel 0).length := by
    rw [← hcont, List.length_map]
    exact hi
  have hget := windowContents_get? (csize : Int) ((csize - cov : Nat) : Int) d.content fuel 0 i hwc
  have hcast : (0 : Int) + (i : Int) * ((csize - cov : Nat) : Int)
      = ((i * (csize - cov) : Nat) : Int) := by push_cast; ring
  rw [hcast] at hget
  have hgetcs : (cs.map Document.content).get? i
      = some ((cs.get ⟨i, hi⟩).content) := by
    rw [List.get?_eq_get (by simpa using hi)]
    simp
  rw [hcont] at hgetcs
  rw [hget] at hgetcs
  have hcnt : (cs.get ⟨i, hi⟩).content
      = pySlice d.content ((i * (csize - cov) : Nat) : Int)
          (((i * (csize - cov) : Nat) : Int) + (csize : Int)) := by
    exact (Option.some.injEq _ _ ▸ hgetcs).symm
  refine ⟨hcnt, ?_, ?_⟩
  · rw [hcnt, pySlice_length]
  · rw [hcnt, pySlice_length]
    omega

/-- Witness for the amended C1 at a concrete run. -/
theorem chunker_sliding_window_amended_witness :
    0 < ([⟨"abcd".toList,
            [("source", MetaVal.str "a"), ("type", MetaVal.str "t"), ("chunk_index", MetaVal.int 0)]⟩,
          ⟨"cde".toList,
            [("source", MetaVal.str "a"), ("type", MetaVal.str "t"), ("chunk_index", MetaVal.int 1)]⟩,
          ⟨"e".toList,
            [("source", MetaVal.str "a"), ("type", MetaVal.str "t"), ("chunk_index", MetaVal.int 2)]⟩] : List Document).length :=
  (chunker_sliding_window_amended 4 2
    ⟨"abcde".toList, [("source", MetaVal.str "a"), ("type", MetaVal.str "t")]⟩ 8
    [⟨"abcd".toList,
       [("source", MetaVal.str "a"), ("type", MetaVal.str "t"), ("chunk_index", MetaVal.int 0)]⟩,
     ⟨"cde".toList,
       [("source", MetaVal.str "a"), ("type", MetaVal.str "t"), ("chunk_index", MetaVal.int 1)]⟩,
     ⟨"e".toList,
       [("source", MetaVal.str "a"), ("type", MetaVal.str "t"), ("chunk_index", MetaVal.int 2)]⟩]
    (by omega) (by decide) (by decide)).1

/-- Claim C4: in every successful run of `chunk_documents`, the chunk at
emission position `i` carries metadata key `chunk_index` with value `i`
(so the values are exactly 0, 1, ..., n-1 in emission order, globally
across all input documents of the call), and its metadata equals the
metadata of one of the input documents extended with that `chunk_index`
binding (a copy at the value level; object identity is treated in the
heap model). -/
theorem chunk_index_global_contiguous
    (ck : TextChunker) (objs : List PyObj) (fuel : Nat) (cs : List Document)
    (hrun : chunk_documents ck objs fuel = some (Except.ok cs)) :
    (∀ (i : Nat) (hi : i < cs.length),
        dictGet ((cs.get ⟨i, hi⟩).metadata) "chunk_index" = some (MetaVal.int i)) ∧
    (∀ (i : Nat) (hi : i < cs.length),
        ∃ d, PyObj.doc d ∈ objs ∧
          (cs.get ⟨i, hi⟩).metadata = dictInsert d.metadata "chunk_index" (MetaVal.int i)) := by
  by_cases hobjs : objs = []
  · subst hobjs
    rw [chunk_documents, if_pos rfl] at hrun
    simp at hrun
  · rw [chunk_documents, if_neg hobjs] at hrun
    have hmeta := docsLoop_meta _ _ objs [] fuel cs hrun
    refine ⟨?_, fun i hi => hmeta i hi (by simp)⟩
    intro i hi
    obtain ⟨d, -, hmd⟩ := hmeta i hi (by simp)
    rw [hmd, dictGet_insert_self]

/-- Witness for C4: a run over two documents emits chunk indices 0, 1, 2
in order; here the third chunk (from the second document) has index 2. -/
theorem chunk_index_global_contiguous_witness :
    dictGet [("source", MetaVal.str "b"), ("type", MetaVal.str "t"), ("chunk_index", MetaVal.int 2)]
        "chunk_index" = some (MetaVal.int 2) := by
  have h := chunk_index_global_contiguous ⟨3, 1⟩
    [PyObj.doc ⟨"abcd".toList, [("source", MetaVal.str "a"), ("type", MetaVal.str "t")]⟩,
     PyObj.doc ⟨"xy".toList, [("source", MetaVal.str "b"), ("type", MetaVal.str "t")]⟩] 9
    [⟨"abc".toList, [("source", MetaVal.str "a"), ("type", MetaVal.str "t"), ("chunk_index", MetaVal.int 0)]⟩,
     ⟨"cd".toList, [("source", MetaVal.str "a"), ("type", MetaVal.str "t"), ("chunk_index", MetaVal.int 1)]⟩,
     ⟨"xy".toList, [("source", MetaVal.str "b"), ("type", MetaVal.str "t"), ("chunk_index", MetaVal.int 2)]⟩]
    (by decide)
  exact h.1 2 (by decide)

/-- Claim C9: chunking loses no text: for non-degenerate configurations,
concatenating the first `a = chunk_size - chunk_overlap` characters of
every chunk of a document but the last, followed by the whole last chunk,
yields the original content, and every character of the content occurs in
some chunk. -/
theorem chunking_reassembles_content
    (csize cov : Nat) (d : Document) (fuel : Nat) (cs : List Document)
    (hcfg : cov < csize) (hne : d.content ≠ [])
    (hrun : chunk_documents ⟨(csize : Int), (cov : Int)⟩ [PyObj.doc d] fuel
              = some (Except.ok cs)) :
    reassemble (csize - cov) (cs.map Document.content) = d.content ∧
    ∀ ch ∈ d.content, ∃ c ∈ cs, ch ∈ c.content := by
  obtain ⟨f2, hw⟩ := chunk_documents_single _ _ _ _ hne hrun
  dsimp only at hw
  have hadv : (csize : Int) - (cov : Int) = ((csize - cov : Nat) : Int) := by omega
  rw [hadv] at hw
  have hlen0 : 0 < d.content.length := List.length_pos.2 hne
  have hw0 : windowLoop (csize : Int) ((csize - cov : Nat) : Int) d.content d.metadata
      fuel (((0 : Nat) : Int)) [] = some (cs, f2) := by
    simpa using hw
  have hre := windowLoop_reassemble csize (csize - cov) d.content d.metadata
    (by omega) (by omega) fuel 0 [] cs f2 hw0 hlen0
  have hcont := windowLoop_contents _ _ _ _ fuel 0 [] cs f2 hw
  simp only [List.map_nil, List.nil_append] at hcont
  have hmain : reassemble (csize - cov) (cs.map Document.content) = d.content := by
    rw [hcont]
    simpa using hre
  refine ⟨hmain, ?_⟩
  intro ch hch
  rw [← hmain] at hch
  obtain ⟨w, hwmem, hchw⟩ := reassemble_mem _ _ _ hch
  obtain ⟨c, hc, rfl⟩ := List.mem_map.1 hwmem
  exact ⟨c, hc, hchw⟩

/-- Witness for C9 at a concrete run. -/
theorem chunking_reassembles_content_witness :
    reassemble 2
        (([⟨"abcd".toList,
             [("source", MetaVal.str "a"), ("type", MetaVal.str "t"), ("chunk_index", MetaVal.int 0)]⟩,
           ⟨"cde".toList,
             [("source", MetaVal.str "a"), ("type", MetaVal.str "t"), ("chunk_index", MetaVal.int 1)]⟩,
           ⟨"e".toList,
             [("source", MetaVal.str "a"), ("type", MetaVal.str "t"), ("chunk_index", MetaVal.int 2)]⟩] : List Document).map Document.content)
      = "abcde".toList :=
  (chunking_reassembles_content 4 2
    ⟨"abcde".toList, [("source", MetaVal.str "a"), ("type", MetaVal.str "t")]⟩ 8
    [⟨"abcd".toList,
       [("source", MetaVal.str "a"), ("type", MetaVal.str "t"), ("chunk_index", MetaVal.int 0)]⟩,
     ⟨"cde".toList,
       [("source", MetaVal.str "a"), ("type", MetaVal.str "t"), ("chunk_index", MetaVal.int 1)]⟩,
     ⟨"e".toList,
       [("source", MetaVal.str "a"), ("type", MetaVal.str "t"), ("chunk_index", MetaVal.int 2)]⟩]
    (by omega) (by decide) (by decide)).1

/-- Claim C5: `embed` maps the empty input to the empty output; whenever
the embedding capability is unavailable (no model loaded, or the model
raises during encoding) it returns one zero vector of dimensionality 384
per input text; and in the successful path it returns the model output,
one vector per text whenever the external model meets its positional
contract. `embed` is total, so it never raises. -/
theorem embed_shape_and_degraded (e : Embedder) (texts : List String) :
    embed e [] = [] ∧
    zeroVec.length = 384 ∧
    (e.model = none → embed e texts = texts.map (fun _ => zeroVec)) ∧
    (∀ (m : EmbModel) (msg : String),
        e.model = some m → m.encode texts = Except.error msg →
        embed e texts = texts.map (fun _ => zeroVec)) ∧
    (∀ (m : EmbModel) (vs : List Vec),
        e.model = some m → m.encode texts = Except.ok vs →
        vs.length = texts.length → (embed e texts).length = texts.length) := by
  obtain ⟨mo⟩ := e
  refine ⟨by rw [embed, if_pos rfl], by rw [zeroVec]; exact List.length_replicate 384 0, ?_, ?_, ?_⟩
  · intro hm
    dsimp only at hm
    subst hm
    by_cases ht : texts = []
    · subst ht
      rw [embed, if_pos rfl]
      exact List.map_nil.symm
    · rw [embed, if_neg ht]
  · intro m msg hm henc
    dsimp only at hm
    subst hm
    by_cases ht : texts = []
    · subst ht
      rw [embed, if_pos rfl]
      exact List.map_nil.symm
    · rw [embed, if_neg ht]
      dsimp only
      rw [henc]
  · intro m vs hm henc hlen
    dsimp only at hm
    subst hm
    by_cases ht : texts = []
    · subst ht
      rw [embed, if_pos rfl]
      rfl
    · rw [embed, if_neg ht]
      dsimp only
      rw [henc]
      exact hlen

/-- Witness for C5: the mock-mode embedder returns a zero vector per text
and the empty list on empty input. -/
theorem embed_shape_and_degraded_witness :
    embed ⟨none⟩ ["a"] = [zeroVec] ∧ embed ⟨none⟩ [] = [] := by
  have h := embed_shape_and_degraded ⟨none⟩ ["a"]
  exact ⟨by simpa using h.2.2.1 rfl, h.1⟩

/-- Claim C6: `answer` returns the fixed no-information response without
consulting the language model when the retriever returns no documents
(the result is the same for every language model), and otherwise forwards
to the language model the prompt built from the template and the
retrieved chunk contents joined by the fixed delimiter. -/
theorem answer_short_circuit_and_prompt
    (retr : List Char → List Document) (g : List Char → List Char) (q : List Char) :
    (retr q = [] → answer ⟨retr, g⟩ q = noInfoMsg) ∧
    (retr q ≠ [] →
      answer ⟨retr, g⟩ q
        = g (tmplPre ++ List.intercalate ctxDelim ((retr q).map Document.content)
              ++ tmplMid ++ q ++ tmplEnd)) := by
  constructor
  · intro hq
    simp [answer, hq]
  · intro hq
    simp [answer, constructPrompt, hq]

/-- Witness for C6: one engine with empty retrieval short-circuits, one
with a single retrieved chunk forwards the assembled prompt. -/
theorem answer_short_circuit_and_prompt_witness :
    answer ⟨fun _ => [], fun _ => "X".toList⟩ ("q".toList) = noInfoMsg ∧
    answer ⟨fun _ => [⟨"c1".toList, []⟩], id⟩ ("q".toList)
      = id (tmplPre ++ List.intercalate ctxDelim
              (([⟨"c1".toList, []⟩] : List Document).map Document.content)
            ++ tmplMid ++ "q".toList ++ tmplEnd) := by
  constructor
  · exact (answer_short_circuit_and_prompt (fun _ => []) (fun _ => "X".toList) ("q".toList)).1 rfl
  · exact (answer_short_circuit_and_prompt (fun _ => [⟨"c1".toList, []⟩]) id ("q".toList)).2 (by simp)

/-- Claim C8: `_validate_document` accepts a document whose metadata has
both required keys `source` and `type`, and rejects one missing either
key with the `ValueError` naming exactly the missing required keys. -/
theorem validate_metadata_required_keys (d : Document) :
    ((dictHasKey d.metadata "source" = true ∧ dictHasKey d.metadata "type" = true) →
        validate_document (PyObj.doc d) = Except.ok ()) ∧
    (¬ (dictHasKey d.metadata "source" = true ∧ dictHasKey d.metadata "type" = true) →
      ∃ ks, validate_document (PyObj.doc d) = Except.error (ValErr.missingKeys ks) ∧
        ks ≠ [] ∧
        (∀ k, k ∈ ks ↔ ((k = "source" ∨ k = "type") ∧ dictHasKey d.metadata k = false))) := by
  constructor
  · rintro ⟨hs, ht⟩
    have hall : requiredKeys.all (fun k => dictHasKey d.metadata k) = true := by
      simp [requiredKeys, hs, ht]
    simp [validate_document, hall]
  · intro hnot
    have hmiss : dictHasKey d.metadata "source" = false ∨ dictHasKey d.metadata "type" = false := by
      rcases Bool.eq_false_or_eq_true (dictHasKey d.metadata "source") with h1 | h1
      · rcases Bool.eq_false_or_eq_true (dictHasKey d.metadata "type") with h2 | h2
        · exact absurd ⟨h1, h2⟩ hnot
        · exact Or.inr h2
      · exact Or.inl h1
    have hall : requiredKeys.all (fun k => dictHasKey d.metadata k) = false := by
      rcases hmiss with h1 | h1 <;> simp [requiredKeys, h1]
    refine ⟨requiredKeys.filter (fun k => ! dictHasKey d.metadata k),
      by simp [validate_document, hall], ?_, ?_⟩
    · rcases hmiss with h1 | h1
      · have hsrc : "source" ∈ requiredKeys.filter (fun k => ! dictHasKey d.metadata k) :=
          List.mem_filter.2 ⟨by simp [requiredKeys], by simp [h1]⟩
        exact List.ne_nil_of_mem hsrc
      · have htyp : "type" ∈ requiredKeys.filter (fun k => ! dictHasKey d.metadata k) :=
          List.mem_filter.2 ⟨by simp [requiredKeys], by simp [h1]⟩
        exact List.ne_nil_of_mem htyp
    · intro k
      rw [List.mem_filter]
      simp [requiredKeys]

/-- Witness for C8: metadata with both keys passes; metadata missing
`source` fails naming `source`. -/
theorem validate_metadata_required_keys_witness :
    validate_document (PyObj.doc ⟨"x".toList, [("source", MetaVal.str "a"), ("type", MetaVal.str "txt")]⟩)
      = Except.ok () ∧
    validate_document (PyObj.doc ⟨"x".toList, [("type", MetaVal.str "txt")]⟩)
      = Except.error (ValErr.missingKeys ["source"]) := by
  constructor
  · exact (validate_metadata_required_keys
      ⟨"x".toList, [("source", MetaVal.str "a"), ("type", MetaVal.str "txt")]⟩).1
      ⟨by decide, by decide⟩
  · obtain ⟨ks, hks, -, hmem⟩ := (validate_metadata_required_keys
      ⟨"x".toList, [("type", MetaVal.str "txt")]⟩).2 (by decide)
    have : ks = ["source"] := by
      have h1 : validate_document (PyObj.doc ⟨"x".toList, [("type", MetaVal.str "txt")]⟩)
          = Except.error (ValErr.missingKeys ["source"]) := by decide
      rw [h1] at hks
      exact (ValErr.missingKeys.injEq _ _ ▸ (Except.error.injEq _ _ ▸ hks)).symm
    rw [← this]
    exact hks

/-- Claim C10: `chunk_documents` does not mutate its inputs and every
chunk metadata dict is a fresh object: in the heap model, a successful
run only appends new dicts to the heap (every pre-existing address keeps
its dict, so every input document metadata is unchanged), and every
emitted chunk stores a freshly allocated metadata address distinct from
every valid input document address. -/
theorem chunk_documents_frame_and_fresh_metadata
    (ck : TextChunker) (objs : List PyObjH) (h : Heap) (fuel : Nat)
    (cs : List DocumentH) (h2 : Heap)
    (hrun : chunk_documentsH ck objs h fuel = some (Except.ok (cs, h2))) :
    (∃ ext, h2 = h ++ ext) ∧
    (∀ c ∈ cs, h.length ≤ c.metadata) ∧
    (∀ dh : DocumentH, PyObjH.doc dh ∈ objs → dh.metadata < h.length →
        (List.getD h2 dh.metadata [] = List.getD h dh.metadata [] ∧
         ∀ c ∈ cs, c.metadata ≠ dh.metadata)) := by
  by_cases hobjs : objs = []
  · subst hobjs
    rw [chunk_documentsH, if_pos rfl] at hrun
    simp at hrun
  · rw [chunk_documentsH, if_neg hobjs] at hrun
    obtain ⟨⟨ext, hext⟩, hfresh⟩ := docsLoopH_frame _ _ objs [] h fuel cs h2 hrun
    have hfresh2 : ∀ c ∈ cs, h.length ≤ c.metadata := by
      intro c hc
      rcases hfresh c hc with hmem | hge
      · simp at hmem
      · exact hge
    refine ⟨⟨ext, hext⟩, hfresh2, ?_⟩
    intro dh hmem hlt
    constructor
    · rw [hext]
      exact List.getD_append h ext [] dh.metadata hlt
    · intro c hc
      have := hfresh2 c hc
      omega

/-- Witness for C10 at a concrete heap run: the dict of the first input
document (address 0) is unchanged after the call. -/
theorem chunk_documents_frame_and_fresh_metadata_witness :
    List.getD
        [[("source", MetaVal.str "a"), ("type", MetaVal.str "t")],
         [("source", MetaVal.str "b"), ("type", MetaVal.str "t")],
         [("source", MetaVal.str "a"), ("type", MetaVal.str "t"), ("chunk_index", MetaVal.int 0)],
         [("source", MetaVal.str "a"), ("type", MetaVal.str "t"), ("chunk_index", MetaVal.int 1)],
         [("source", MetaVal.str "b"), ("type", MetaVal.str "t"), ("chunk_index", MetaVal.int 2)]]
        0 []
      = List.getD
          [[("source", MetaVal.str "a"), ("type", MetaVal.str "t")],
           [("source", MetaVal.str "b"), ("type", MetaVal.str "t")]] 0 [] :=
  ((chunk_documents_frame_and_fresh_metadata ⟨3, 1⟩
      [PyObjH.doc ⟨"abcd".toList, 0⟩, PyObjH.doc ⟨"xy".toList, 1⟩]
      [[("source", MetaVal.str "a"), ("type", MetaVal.str "t")],
       [("source", MetaVal.str "b"), ("type", MetaVal.str "t")]] 9
      [⟨"abc".toList, 2⟩, ⟨"cd".toList, 3⟩, ⟨"xy".toList, 4⟩]
      [[("source", MetaVal.str "a"), ("type", MetaVal.str "t")],
       [("source", MetaVal.str "b"), ("type", MetaVal.str "t")],
       [("source", MetaVal.str "a"), ("type", MetaVal.str "t"), ("chunk_index", MetaVal.int 0)],
       [("source", MetaVal.str "a"), ("type", MetaVal.str "t"), ("chunk_index", MetaVal.int 1)],
       [("source", MetaVal.str "b"), ("type", MetaVal.str "t"), ("chunk_index", MetaVal.int 2)]]
      (by decide)).2.2 ⟨"abcd".toList, 0⟩ (by simp) (by decide)).1
